import Mathlib

/-!
Verification of the cron-job comparison core of `go-utils-compare`
(`src/main.go`), shallowly embedded in Lean 4.

The embedded parts are:
* `CronJob` — the job record (`command`, `name`, `schedule` fields);
* `JobDifference` — the output record of the JSON branch of `compareCommands`;
* `createCronJobMap` — the Go map built from a job slice, modelled as an
  association list whose keys are kept in first-insertion order and whose
  values follow Go's last-write-wins assignment `jobMap[job.Name] = job`;
* `normalizeCommand` — `strings.Join(strings.Fields(command), " ")`,
  with `strings.Fields` embedded as `goFields` (split around maximal runs
  of Unicode white space, Go's `unicode.IsSpace`);
* `compareCommands` — the difference-collecting loops of the JSON branch
  (`src/main.go` lines 62–97).  A Go `for k, v := range m` loop visits the
  map entries in an unspecified order, so the general model
  `compareCommandsWith` takes the two iteration orders as explicit
  arguments (any permutation of the map entries); `compareCommands` is the
  canonical instance that iterates in first-insertion order.
-/

/-- A cron job record, from `type CronJob struct` in `src/main.go`. -/
structure CronJob where
  command : String
  name : String
  schedule : String
deriving Repr, DecidableEq

/-- A difference record, from `type JobDifference struct` in `src/main.go`.
`production`/`development` are Go strings (the zero value `""` plays the
role of an absent optional field; the JSON layer omits empty fields). -/
structure JobDifference where
  cronName : String
  type : String
  production : String
  development : String
deriving Repr, DecidableEq

/-- The literal `Type` strings used by `compareCommands` in `src/main.go`. -/
def cmdDiffType : String := "Command Difference"

def schedDiffType : String := "Schedule Difference"

def missingInDevType : String := "Exists in production but not in development"

def missingInProdType : String := "Exists in development but not in production"

/-- Go map assignment `m[k] = v` on the association-list model: overwrite the
entry holding key `k` if present, otherwise append a fresh entry. -/
def mapInsert (m : List (String × CronJob)) (k : String) (v : CronJob) :
    List (String × CronJob) :=
  if m.any (fun p => p.1 = k) then
    m.map (fun p => if p.1 = k then (k, v) else p)
  else
    m ++ [(k, v)]

/-- `createCronJobMap` from `src/main.go`: fold Go map assignment
`jobMap[job.Name] = job` over the slice. -/
def createCronJobMap (cronJobs : List CronJob) : List (String × CronJob) :=
  cronJobs.foldl (fun m job => mapInsert m job.name job) []

/-- Go map read `m[k]`: the value of the (unique) entry holding key `k`. -/
def lookupJob (m : List (String × CronJob)) (k : String) : Option CronJob :=
  (m.find? (fun p => p.1 = k)).map Prod.snd

/-- Go's `unicode.IsSpace`: the Unicode White_Space code points
(U+0009-U+000D, U+0020, U+0085, U+00A0, U+1680, U+2000-U+200A, U+2028,
U+2029, U+202F, U+205F, U+3000). -/
def goIsSpace (c : Char) : Bool :=
  (0x9 <= c.toNat && c.toNat <= 0xd) || c.toNat == 0x20 ||
  c.toNat == 0x85 || c.toNat == 0xa0 || c.toNat == 0x1680 ||
  (0x2000 <= c.toNat && c.toNat <= 0x200a) || c.toNat == 0x2028 ||
  c.toNat == 0x2029 || c.toNat == 0x202f || c.toNat == 0x205f ||
  c.toNat == 0x3000

/-- The accumulating loop of Go's `strings.Fields`: walk the characters,
growing the current field in `acc` and emitting it at each white-space
boundary. -/
def goFieldsAux : List Char → List Char → List (List Char)
  | [], acc => if acc.isEmpty then [] else [acc]
  | c :: cs, acc =>
    if goIsSpace c then
      if acc.isEmpty then goFieldsAux cs [] else acc :: goFieldsAux cs []
    else goFieldsAux cs (acc ++ [c])

/-- `strings.Fields` on a character list. -/
def goFieldsList (l : List Char) : List (List Char) :=
  goFieldsAux l []

/-- `strings.Join(tokens, " ")` on character lists. -/
def joinSpace : List (List Char) → List Char
  | [] => []
  | [t] => t
  | t :: ts => t ++ ' ' :: joinSpace ts

/-- `normalizeCommand` from `src/main.go`:
`strings.Join(strings.Fields(command), " ")`. -/
def normalizeCommand (command : String) : String :=
  ⟨joinSpace (goFieldsList command.data)⟩

/-- The body of the first JSON-branch loop of `compareCommands`
(`src/main.go` lines 64–88) for one production map entry: emit a command
difference and/or a schedule difference when the name also exists on the
development side, and a missing-in-development record otherwise. -/
def prodEntryDiffs (devMap : List (String × CronJob)) (e : String × CronJob) :
    List JobDifference :=
  match lookupJob devMap e.1 with
  | some devJob =>
    (if normalizeCommand e.2.command ≠ normalizeCommand devJob.command then
      [⟨e.1, cmdDiffType, e.2.command, devJob.command⟩] else []) ++
    (if e.2.schedule ≠ devJob.schedule then
      [⟨e.1, schedDiffType, e.2.schedule, devJob.schedule⟩] else [])
  | none => [⟨e.1, missingInDevType, "", ""⟩]

/-- The body of the second JSON-branch loop of `compareCommands`
(`src/main.go` lines 90–97) for one development map entry. -/
def devEntryDiffs (prodMap : List (String × CronJob)) (e : String × CronJob) :
    List JobDifference :=
  match lookupJob prodMap e.1 with
  | some _ => []
  | none => [⟨e.1, missingInProdType, "", ""⟩]

/-- The difference list built by the JSON branch of `compareCommands`, with
the two `range` iteration orders passed explicitly: `prodOrder` and
`devOrder` are the sequences in which the runtime enumerates the entries of
the production and development maps. -/
def compareCommandsWith (prodMap devMap : List (String × CronJob))
    (prodOrder devOrder : List (String × CronJob)) : List JobDifference :=
  prodOrder.flatMap (prodEntryDiffs devMap) ++
    devOrder.flatMap (devEntryDiffs prodMap)

/-- The difference list of `compareCommands` for two job collections, in the
canonical (first-insertion) iteration order. -/
def compareCommands (prodJobs devJobs : List CronJob) : List JobDifference :=
  compareCommandsWith (createCronJobMap prodJobs) (createCronJobMap devJobs)
    (createCronJobMap prodJobs) (createCronJobMap devJobs)

/-! ### Association-list map lemmas -/

/-- The key sequence of a map. -/
def mapKeys (m : List (String × CronJob)) : List String :=
  m.map Prod.fst

theorem lookupJob_nil (n : String) : lookupJob [] n = none := rfl

theorem lookupJob_cons (p : String × CronJob) (m : List (String × CronJob))
    (n : String) :
    lookupJob (p :: m) n = if p.1 = n then some p.2 else lookupJob m n := by
  by_cases h : p.1 = n <;> simp [lookupJob, List.find?_cons, h]

theorem any_key_eq_false_iff (m : List (String × CronJob)) (k : String) :
    m.any (fun p => p.1 = k) = false ↔ ∀ p ∈ m, p.1 ≠ k := by
  simp [List.any_eq_false]

theorem lookup_overwrite (m : List (String × CronJob)) (k : String)
    (v : CronJob) (n : String) :
    lookupJob (m.map (fun p => if p.1 = k then (k, v) else p)) n =
      if n = k then (if m.any (fun p => p.1 = k) then some v else none)
      else lookupJob m n := by
  induction m with
  | nil => by_cases h : n = k <;> simp [lookupJob, h]
  | cons p m ih =>
    rw [List.map_cons, lookupJob_cons, List.any_cons]
    by_cases hpk : p.1 = k
    · by_cases hnk : n = k
      · rw [if_pos hpk]
        simp [hnk, hpk, eq_comm]
      · have hpn : ¬p.1 = n := fun h => hnk (hpk.symm.trans h).symm
        rw [if_pos hpk]
        simp only [ih, if_neg hnk]
        rw [if_neg (fun h : k = n => hnk h.symm), lookupJob_cons, if_neg hpn]
    · by_cases hnk : n = k
      · have hpn : ¬p.1 = n := fun h => hpk (h.trans hnk)
        rw [if_neg hpk, if_neg hpn, ih, if_pos hnk, if_pos hnk]
        rw [decide_eq_false hpk, Bool.false_or]
      · rw [if_neg hpk, ih, if_neg hnk, if_neg hnk, lookupJob_cons]

theorem lookupJob_append_single (m : List (String × CronJob)) (k : String)
    (v : CronJob) (n : String) (h : ∀ p ∈ m, p.1 ≠ k) :
    lookupJob (m ++ [(k, v)]) n = if n = k then some v else lookupJob m n := by
  induction m with
  | nil =>
    rw [List.nil_append, lookupJob_cons, lookupJob_nil]
    by_cases hnk : n = k
    · simp [hnk]
    · rw [if_neg (fun hkn : k = n => hnk hkn.symm), if_neg hnk]
  | cons p m ih =>
    have hp : p.1 ≠ k := h p (by simp)
    rw [List.cons_append, lookupJob_cons, lookupJob_cons,
      ih (fun q hq => h q (by simp [hq]))]
    by_cases hpn : p.1 = n
    · have hnk : ¬n = k := fun hnk => hp (hpn.trans hnk)
      simp [hpn, hnk]
    · simp [hpn]

theorem lookupJob_mapInsert (m : List (String × CronJob)) (k : String)
    (v : CronJob) (n : String) :
    lookupJob (mapInsert m k v) n = if n = k then some v else lookupJob m n := by
  unfold mapInsert
  by_cases hany : m.any (fun p => p.1 = k)
  · rw [if_pos hany, lookup_overwrite, if_pos hany]
  · have hall : ∀ p ∈ m, p.1 ≠ k :=
      (any_key_eq_false_iff m k).mp (Bool.eq_false_iff.mpr hany)
    rw [if_neg hany, lookupJob_append_single m k v n hall]

theorem mapKeys_mapInsert (m : List (String × CronJob)) (k : String)
    (v : CronJob) :
    mapKeys (mapInsert m k v) =
      if m.any (fun p => p.1 = k) then mapKeys m else mapKeys m ++ [k] := by
  unfold mapInsert
  by_cases hany : m.any (fun p => p.1 = k)
  · rw [if_pos hany, if_pos hany]
    unfold mapKeys
    rw [List.map_map]
    refine List.map_congr_left (fun p _ => ?_)
    by_cases hpk : p.1 = k
    · simp [hpk]
    · simp [hpk]
  · rw [if_neg hany, if_neg hany]
    unfold mapKeys
    rw [List.map_append]
    rfl

theorem keysNodup_mapInsert (m : List (String × CronJob)) (k : String)
    (v : CronJob) (h : (mapKeys m).Nodup) : (mapKeys (mapInsert m k v)).Nodup := by
  rw [mapKeys_mapInsert]
  by_cases hany : m.any (fun p => p.1 = k)
  · rw [if_pos hany]; exact h
  · rw [if_neg hany]
    have hk : k ∉ mapKeys m := by
      have hall : ∀ p ∈ m, p.1 ≠ k :=
        (any_key_eq_false_iff m k).mp (Bool.eq_false_iff.mpr hany)
      intro hmem
      rcases List.mem_map.mp hmem with ⟨p, hp, hpk⟩
      exact hall p hp hpk
    rw [(List.perm_append_singleton k (mapKeys m)).nodup_iff]
    exact List.nodup_cons.mpr ⟨hk, h⟩

theorem keysNodup_foldl (jobs : List CronJob) :
    ∀ m : List (String × CronJob), (mapKeys m).Nodup →
      (mapKeys (jobs.foldl (fun m job => mapInsert m job.name job) m)).Nodup := by
  induction jobs with
  | nil => exact fun m h => h
  | cons j jobs ih =>
    intro m h
    exact ih (mapInsert m j.name j) (keysNodup_mapInsert m j.name j h)

theorem keysNodup_createCronJobMap (jobs : List CronJob) :
    (mapKeys (createCronJobMap jobs)).Nodup :=
  keysNodup_foldl jobs [] List.nodup_nil

theorem mem_of_lookupJob_eq_some (m : List (String × CronJob)) (k : String)
    (v : CronJob) (h : lookupJob m k = some v) : (k, v) ∈ m := by
  unfold lookupJob at h
  cases hf : m.find? (fun p => p.1 = k) with
  | none => rw [hf] at h; exact absurd h (by simp)
  | some p =>
    rw [hf] at h
    have hp := List.find?_some hf
    have hmem := List.mem_of_find?_eq_some hf
    have hk : p.1 = k := of_decide_eq_true hp
    have hv : p.2 = v := by simpa using h
    have : p = (k, v) := Prod.ext hk hv
    rwa [this] at hmem

theorem lookupJob_eq_none_iff (m : List (String × CronJob)) (n : String) :
    lookupJob m n = none ↔ ∀ p ∈ m, p.1 ≠ n := by
  unfold lookupJob
  rw [Option.map_eq_none', List.find?_eq_none]
  constructor
  · intro h p hp
    exact fun he => by simpa [he] using h p hp
  · intro h p hp
    simpa using h p hp

theorem lookupJob_eq_some_of_mem (m : List (String × CronJob)) (k : String)
    (v : CronJob) (hnd : (mapKeys m).Nodup) (hmem : (k, v) ∈ m) :
    lookupJob m k = some v := by
  induction m with
  | nil => cases hmem
  | cons p m ih =>
    rw [lookupJob_cons]
    rcases List.mem_cons.mp hmem with heq | hmem'
    · rw [← heq]
      simp
    · have hk : k ∈ mapKeys m := List.mem_map.mpr ⟨(k, v), hmem', rfl⟩
      have hpk : p.1 ≠ k := by
        intro hpk
        have := (List.nodup_cons.mp hnd).1
        exact this (hpk ▸ hk)
      rw [if_neg hpk]
      exact ih (List.nodup_cons.mp hnd).2 hmem'

theorem createCronJobMap_concat (jobs : List CronJob) (j : CronJob) :
    createCronJobMap (jobs ++ [j]) =
      mapInsert (createCronJobMap jobs) j.name j := by
  unfold createCronJobMap
  rw [List.foldl_append]
  rfl

/-- `createCronJobMap` is last-write-wins: looking up a name returns the
last job in the slice bearing that name. -/
theorem lookupJob_createCronJobMap (jobs : List CronJob) (n : String) :
    lookupJob (createCronJobMap jobs) n =
      (jobs.filter (fun j => j.name = n)).getLast? := by
  induction jobs using List.reverseRecOn with
  | nil => rfl
  | append_singleton jobs j ih =>
    rw [createCronJobMap_concat, lookupJob_mapInsert, List.filter_append]
    by_cases hj : j.name = n
    · rw [if_pos hj.symm]
      have : List.filter (fun j => decide (j.name = n)) [j] = [j] := by
        simp [hj]
      rw [this, List.getLast?_concat]
    · rw [if_neg (fun h : n = j.name => hj h.symm)]
      have : List.filter (fun j => decide (j.name = n)) [j] = [] := by
        simp [hj]
      rw [this, List.append_nil, ih]

/-! ### Diff-engine lemmas -/

theorem cronName_of_mem_prodEntryDiffs (dm : List (String × CronJob))
    (e : String × CronJob) (d : JobDifference) (h : d ∈ prodEntryDiffs dm e) :
    d.cronName = e.1 := by
  unfold prodEntryDiffs at h
  cases hl : lookupJob dm e.1 with
  | none => rw [hl] at h; simp at h; rw [h]
  | some b =>
    rw [hl] at h
    rcases List.mem_append.mp h with h1 | h2
    · split_ifs at h1
      · simp at h1; rw [h1]
      · simp at h1
    · split_ifs at h2
      · simp at h2; rw [h2]
      · simp at h2

theorem cronName_of_mem_devEntryDiffs (pm : List (String × CronJob))
    (e : String × CronJob) (d : JobDifference) (h : d ∈ devEntryDiffs pm e) :
    d.cronName = e.1 := by
  unfold devEntryDiffs at h
  cases hl : lookupJob pm e.1 with
  | none => rw [hl] at h; simp at h; rw [h]
  | some b => rw [hl] at h; simp at h

theorem filter_flatMap_keyed (f : String × CronJob → List JobDifference)
    (hf : ∀ e d, d ∈ f e → d.cronName = e.1) (m : List (String × CronJob))
    (n : String) (hnd : (mapKeys m).Nodup) :
    (m.flatMap f).filter (fun d => d.cronName = n) =
      match lookupJob m n with
      | some v => f (n, v)
      | none => [] := by
  induction m with
  | nil => rfl
  | cons p m ih =>
    have hnd' : (mapKeys m).Nodup := (List.nodup_cons.mp hnd).2
    rw [List.flatMap_cons, List.filter_append, lookupJob_cons]
    by_cases hp : p.1 = n
    · have hhead : (f p).filter (fun d => d.cronName = n) = f p := by
        refine List.filter_eq_self.mpr (fun d hd => ?_)
        exact decide_eq_true ((hf p d hd).trans hp)
      have hnotin : ∀ q ∈ m, q.1 ≠ n := by
        intro q hq hq1
        have hpkeys := (List.nodup_cons.mp hnd).1
        exact hpkeys (hp ▸ hq1 ▸ List.mem_map.mpr ⟨q, hq, rfl⟩)
      have htail : (m.flatMap f).filter (fun d => d.cronName = n) = [] := by
        refine List.filter_eq_nil_iff.mpr (fun d hd => ?_)
        rcases List.mem_flatMap.mp hd with ⟨e, he, hde⟩
        have := (hf e d hde).trans_ne (hnotin e he)
        simpa using this
      rw [hhead, htail, if_pos hp, List.append_nil]
      show f p = f (n, p.2)
      obtain ⟨k, v⟩ := p
      rw [show k = n from hp]
    · have hhead : (f p).filter (fun d => d.cronName = n) = [] := by
        refine List.filter_eq_nil_iff.mpr (fun d hd => ?_)
        have := (hf p d hd).trans_ne hp
        simpa using this
      rw [hhead, if_neg hp, List.nil_append, ih hnd']

/-- The sub-list of difference records bearing a given job name: the records
contributed by that name's entries in the two maps (if any). -/
theorem filter_compareCommands (A B : List CronJob) (n : String) :
    (compareCommands A B).filter (fun d => d.cronName = n) =
      (match lookupJob (createCronJobMap A) n with
       | some a => prodEntryDiffs (createCronJobMap B) (n, a)
       | none => []) ++
      (match lookupJob (createCronJobMap B) n with
       | some b => devEntryDiffs (createCronJobMap A) (n, b)
       | none => []) := by
  unfold compareCommands compareCommandsWith
  rw [List.filter_append,
    filter_flatMap_keyed _ (cronName_of_mem_prodEntryDiffs _) _ n
      (keysNodup_createCronJobMap A),
    filter_flatMap_keyed _ (cronName_of_mem_devEntryDiffs _) _ n
      (keysNodup_createCronJobMap B)]

theorem mem_compareCommands_iff_mem_filter (A B : List CronJob)
    (d : JobDifference) :
    d ∈ compareCommands A B ↔
      d ∈ (compareCommands A B).filter (fun d' => d'.cronName = d.cronName) := by
  constructor
  · intro h
    exact List.mem_filter.mpr ⟨h, by simp⟩
  · intro h
    exact (List.mem_filter.mp h).1

/-! ### Normalizer lemmas -/

theorem goFieldsAux_nil (acc : List Char) :
    goFieldsAux [] acc = if acc.isEmpty then [] else [acc] := rfl

theorem goFieldsAux_cons (c : Char) (cs acc : List Char) :
    goFieldsAux (c :: cs) acc =
      if goIsSpace c then
        (if acc.isEmpty then goFieldsAux cs [] else acc :: goFieldsAux cs [])
      else goFieldsAux cs (acc ++ [c]) := rfl

theorem goFieldsAux_word (w : List Char) (hw : ∀ c ∈ w, goIsSpace c = false) :
    ∀ r acc, goFieldsAux (w ++ r) acc = goFieldsAux r (acc ++ w) := by
  induction w with
  | nil => intro r acc; rw [List.nil_append, List.append_nil]
  | cons c w ih =>
    intro r acc
    have hc : goIsSpace c = false := hw c (by simp)
    rw [List.cons_append, goFieldsAux_cons, if_neg (by simp [hc]),
      ih (fun c hc => hw c (by simp [hc])) r (acc ++ [c]), List.append_assoc,
      List.singleton_append]

theorem goFieldsAux_tokens (l : List Char) :
    ∀ acc, (∀ c ∈ acc, goIsSpace c = false) →
      ∀ t ∈ goFieldsAux l acc, t ≠ [] ∧ ∀ c ∈ t, goIsSpace c = false := by
  induction l with
  | nil =>
    intro acc hacc t ht
    rw [goFieldsAux_nil] at ht
    by_cases he : acc.isEmpty
    · rw [if_pos he] at ht; cases ht
    · rw [if_neg he] at ht
      have : t = acc := by simpa using ht
      subst this
      exact ⟨fun h => he (by simp [h]), hacc⟩
  | cons c cs ih =>
    intro acc hacc t ht
    rw [goFieldsAux_cons] at ht
    by_cases hsp : goIsSpace c
    · rw [if_pos hsp] at ht
      by_cases he : acc.isEmpty
      · rw [if_pos he] at ht
        exact ih [] (by simp) t ht
      · rw [if_neg he] at ht
        rcases List.mem_cons.mp ht with rfl | ht'
        · exact ⟨fun h => he (by simp [h]), hacc⟩
        · exact ih [] (by simp) t ht'
    · rw [if_neg hsp] at ht
      refine ih (acc ++ [c]) ?_ t ht
      intro d hd
      rcases List.mem_append.mp hd with h1 | h2
      · exact hacc d h1
      · have : d = c := by simpa using h2
        rw [this]
        exact Bool.eq_false_iff.mpr hsp

theorem joinSpace_cons_cons (t t' : List Char) (ts : List (List Char)) :
    joinSpace (t :: t' :: ts) = t ++ ' ' :: joinSpace (t' :: ts) := rfl

theorem goIsSpace_space : goIsSpace ' ' = true := rfl

theorem goFieldsAux_joinSpace (ts : List (List Char))
    (h : ∀ t ∈ ts, t ≠ [] ∧ ∀ c ∈ t, goIsSpace c = false) :
    goFieldsAux (joinSpace ts) [] = ts := by
  induction ts with
  | nil => rfl
  | cons t ts ih =>
    have ht := h t (by simp)
    cases ts with
    | nil =>
      show goFieldsAux t [] = [t]
      have hw := goFieldsAux_word t ht.2 [] []
      rw [List.append_nil, List.nil_append] at hw
      rw [hw, goFieldsAux_nil, if_neg (by simpa using ht.1)]
    | cons t' ts' =>
      rw [joinSpace_cons_cons, goFieldsAux_word t ht.2 _ [], List.nil_append,
        goFieldsAux_cons, if_pos goIsSpace_space,
        if_neg (by simpa using ht.1),
        ih (fun u hu => h u (by simp [hu]))]

theorem goFieldsList_joinSpace_goFieldsList (l : List Char) :
    goFieldsList (joinSpace (goFieldsList l)) = goFieldsList l :=
  goFieldsAux_joinSpace (goFieldsList l) (goFieldsAux_tokens l [] (by simp))

/-- The specification's description of the normalizer's splitting step,
stated directly as maximal-run decomposition: leading white space is
skipped, and each token is a maximal run of non-white-space characters. -/
def splitWhitespaceRuns : List Char → List (List Char)
  | [] => []
  | c :: cs =>
    if goIsSpace c then splitWhitespaceRuns cs
    else
      (c :: cs.takeWhile (fun d => !goIsSpace d)) ::
        splitWhitespaceRuns (cs.dropWhile (fun d => !goIsSpace d))
termination_by l => l.length
decreasing_by
  · simp [List.length_cons]
  · exact Nat.lt_succ_of_le ((List.dropWhile_sublist _).length_le)

/-- The specification's normalizer: split on runs of white space, rejoin
with single spaces (trimming is implicit in run splitting). -/
def specNormalizeCommand (command : String) : String :=
  ⟨joinSpace (splitWhitespaceRuns command.data)⟩

theorem splitWhitespaceRuns_nil : splitWhitespaceRuns [] = [] := by
  simp [splitWhitespaceRuns]

theorem splitWhitespaceRuns_cons (c : Char) (cs : List Char) :
    splitWhitespaceRuns (c :: cs) =
      if goIsSpace c then splitWhitespaceRuns cs
      else
        (c :: cs.takeWhile (fun d => !goIsSpace d)) ::
          splitWhitespaceRuns (cs.dropWhile (fun d => !goIsSpace d)) := by
  rw [splitWhitespaceRuns]

theorem dropWhile_head_false (p : Char → Bool) :
    ∀ (l : List Char) (d : Char) (r : List Char),
      l.dropWhile p = d :: r → p d = false := by
  intro l
  induction l with
  | nil => intro d r h; cases h
  | cons x xs ih =>
    intro d r h
    by_cases hx : p x
    · rw [List.dropWhile_cons_of_pos hx] at h
      exact ih d r h
    · rw [List.dropWhile_cons_of_neg hx] at h
      have : x = d := (List.cons.injEq _ _ _ _ ▸ h).1
      rw [← this]
      exact Bool.eq_false_iff.mpr hx

theorem goFieldsList_eq_splitWhitespaceRuns_aux (n : ℕ) :
    ∀ l : List Char, l.length ≤ n → goFieldsList l = splitWhitespaceRuns l := by
  induction n with
  | zero =>
    intro l hl
    have : l = [] := List.length_eq_zero.mp (Nat.le_zero.mp hl)
    rw [this, splitWhitespaceRuns_nil]
    rfl
  | succ n ih =>
    intro l hl
    cases l with
    | nil => rw [splitWhitespaceRuns_nil]; rfl
    | cons c cs =>
      have hcs : cs.length ≤ n := Nat.succ_le_succ_iff.mp hl
      rw [splitWhitespaceRuns_cons]
      by_cases hsp : goIsSpace c
      · rw [if_pos hsp]
        show goFieldsAux (c :: cs) [] = _
        rw [goFieldsAux_cons, if_pos hsp]
        have h0 : goFieldsAux cs [] = splitWhitespaceRuns cs := ih cs hcs
        simpa using h0
      · rw [if_neg hsp]
        show goFieldsAux (c :: cs) [] = _
        rw [goFieldsAux_cons, if_neg hsp, List.nil_append]
        have htw : ∀ d ∈ cs.takeWhile (fun d => !goIsSpace d),
            goIsSpace d = false := by
          intro d hd
          have := List.mem_takeWhile_imp hd
          simpa using this
        have hsplit := List.takeWhile_append_dropWhile (fun d => !goIsSpace d) cs
        conv_lhs => rw [← hsplit]
        rw [goFieldsAux_word _ htw _ [c], List.singleton_append]
        cases hdw : cs.dropWhile (fun d => !goIsSpace d) with
        | nil =>
          rw [goFieldsAux_nil, if_neg (by simp), splitWhitespaceRuns_nil]
        | cons d dw =>
          have hd : goIsSpace d := by
            have := dropWhile_head_false (fun d => !goIsSpace d) cs d dw hdw
            simpa using this
          have hdw' : dw.length ≤ n := by
            have h1 : (cs.dropWhile (fun d => !goIsSpace d)).length ≤ cs.length :=
              (List.dropWhile_sublist _).length_le
            rw [hdw] at h1
            exact Nat.le_trans (Nat.le_of_succ_le h1) hcs
          rw [goFieldsAux_cons, if_pos hd, if_neg (by simp),
            splitWhitespaceRuns_cons, if_pos hd]
          exact congrArg _ (ih dw hdw')

/-- The Go normalizer's splitting loop agrees with the specification's
maximal-run splitter. -/
theorem goFieldsList_eq_splitWhitespaceRuns (l : List Char) :
    goFieldsList l = splitWhitespaceRuns l :=
  goFieldsList_eq_splitWhitespaceRuns_aux l.length l (Nat.le_refl _)

theorem prodEntryDiffs_shape (dm : List (String × CronJob))
    (e : String × CronJob) (d : JobDifference) (h : d ∈ prodEntryDiffs dm e) :
    (∃ b, lookupJob dm e.1 = some b ∧
      ((d = ⟨e.1, cmdDiffType, e.2.command, b.command⟩ ∧
        normalizeCommand e.2.command ≠ normalizeCommand b.command) ∨
       (d = ⟨e.1, schedDiffType, e.2.schedule, b.schedule⟩ ∧
        e.2.schedule ≠ b.schedule))) ∨
    (lookupJob dm e.1 = none ∧ d = ⟨e.1, missingInDevType, "", ""⟩) := by
  unfold prodEntryDiffs at h
  cases hl : lookupJob dm e.1 with
  | none =>
    rw [hl] at h
    right
    exact ⟨rfl, by simpa using h⟩
  | some b =>
    rw [hl] at h
    left
    refine ⟨b, rfl, ?_⟩
    rcases List.mem_append.mp h with h1 | h2
    · split_ifs at h1 with hc
      · exact Or.inl ⟨by simpa using h1, hc⟩
      · cases h1
    · split_ifs at h2 with hs
      · exact Or.inr ⟨by simpa using h2, hs⟩
      · cases h2

theorem devEntryDiffs_shape (pm : List (String × CronJob))
    (e : String × CronJob) (d : JobDifference) (h : d ∈ devEntryDiffs pm e) :
    lookupJob pm e.1 = none ∧ d = ⟨e.1, missingInProdType, "", ""⟩ := by
  unfold devEntryDiffs at h
  cases hl : lookupJob pm e.1 with
  | none => exact ⟨rfl, by rw [hl] at h; simpa using h⟩
  | some b => rw [hl] at h; cases h

theorem mem_compareCommands_elim (A B : List CronJob) (d : JobDifference)
    (h : d ∈ compareCommands A B) :
    (∃ e ∈ createCronJobMap A, d ∈ prodEntryDiffs (createCronJobMap B) e) ∨
    (∃ e ∈ createCronJobMap B, d ∈ devEntryDiffs (createCronJobMap A) e) := by
  unfold compareCommands compareCommandsWith at h
  rcases List.mem_append.mp h with h1 | h2
  · exact Or.inl (List.mem_flatMap.mp h1)
  · exact Or.inr (List.mem_flatMap.mp h2)

theorem lookup_self_of_mem_createCronJobMap (A : List CronJob)
    (e : String × CronJob) (he : e ∈ createCronJobMap A) :
    lookupJob (createCronJobMap A) e.1 = some e.2 := by
  refine lookupJob_eq_some_of_mem _ _ _ (keysNodup_createCronJobMap A) ?_
  obtain ⟨k, v⟩ := e
  exact he

theorem prodEntryDiffs_of_lookup_some (dm : List (String × CronJob))
    (e : String × CronJob) (b : CronJob) (h : lookupJob dm e.1 = some b) :
    prodEntryDiffs dm e =
      (if normalizeCommand e.2.command ≠ normalizeCommand b.command then
        [⟨e.1, cmdDiffType, e.2.command, b.command⟩] else []) ++
      (if e.2.schedule ≠ b.schedule then
        [⟨e.1, schedDiffType, e.2.schedule, b.schedule⟩] else []) := by
  unfold prodEntryDiffs
  rw [h]

theorem prodEntryDiffs_of_lookup_none (dm : List (String × CronJob))
    (e : String × CronJob) (h : lookupJob dm e.1 = none) :
    prodEntryDiffs dm e = [⟨e.1, missingInDevType, "", ""⟩] := by
  unfold prodEntryDiffs
  rw [h]

theorem devEntryDiffs_of_lookup_some (pm : List (String × CronJob))
    (e : String × CronJob) (b : CronJob) (h : lookupJob pm e.1 = some b) :
    devEntryDiffs pm e = [] := by
  unfold devEntryDiffs
  rw [h]

theorem devEntryDiffs_of_lookup_none (pm : List (String × CronJob))
    (e : String × CronJob) (h : lookupJob pm e.1 = none) :
    devEntryDiffs pm e = [⟨e.1, missingInProdType, "", ""⟩] := by
  unfold devEntryDiffs
  rw [h]

theorem cmdDiffType_ne_schedDiffType : cmdDiffType ≠ schedDiffType := by decide

theorem missingInDevType_ne_cmdDiffType : missingInDevType ≠ cmdDiffType := by
  decide

theorem missingInDevType_ne_schedDiffType : missingInDevType ≠ schedDiffType := by
  decide

theorem missingInProdType_ne_cmdDiffType : missingInProdType ≠ cmdDiffType := by
  decide

theorem missingInProdType_ne_schedDiffType :
    missingInProdType ≠ schedDiffType := by decide

/-! ### Claim theorems -/

/-- C6: command normalization is idempotent:
`normalizeCommand (normalizeCommand s) = normalizeCommand s` for every
string `s`. -/
theorem claim_normalize_idempotent (s : String) :
    normalizeCommand (normalizeCommand s) = normalizeCommand s :=
  congrArg (fun l => (⟨joinSpace l⟩ : String))
    (goFieldsList_joinSpace_goFieldsList s.data)

/-- C7: `normalizeCommand` splits the input on runs of white-space
characters and rejoins the tokens with single spaces, trimming leading and
trailing white space (it agrees with the specification's maximal-run
splitter on every string); in particular
`normalize("a   b\tc") = normalize("a b c") = "a b c"`, and leading and
trailing white space is removed. -/
theorem claim_normalize_splits_on_whitespace :
    (∀ s : String, normalizeCommand s = specNormalizeCommand s) ∧
    normalizeCommand "a   b\tc" = "a b c" ∧
    normalizeCommand "a b c" = "a b c" ∧
    normalizeCommand " \t a b c \t " = "a b c" := by
  refine ⟨fun s => ?_, by decide, by decide, by decide⟩
  unfold normalizeCommand specNormalizeCommand
  rw [goFieldsList_eq_splitWhitespaceRuns]

/-- C9: name-index construction is last-write-wins: looking up a name in
`createCronJobMap jobs` returns exactly the last job in the sequence
bearing that name (and `none` when no job bears it). -/
theorem claim_name_index_last_write_wins (jobs : List CronJob) (n : String) :
    lookupJob (createCronJobMap jobs) n =
      (jobs.filter (fun j => j.name = n)).getLast? :=
  lookupJob_createCronJobMap jobs n

/-- C4: comparing a collection against itself yields no difference records,
whatever iteration orders the runtime uses for the two (identical) maps. -/
theorem claim_compare_self_empty (A : List CronJob)
    (po dvo : List (String × CronJob))
    (hpo : po.Perm (createCronJobMap A))
    (hdo : dvo.Perm (createCronJobMap A)) :
    compareCommandsWith (createCronJobMap A) (createCronJobMap A) po dvo = [] := by
  unfold compareCommandsWith
  rw [List.append_eq_nil]
  constructor
  · rw [List.flatMap_eq_nil_iff]
    intro e he
    have hl := lookup_self_of_mem_createCronJobMap A e (hpo.mem_iff.mp he)
    rw [prodEntryDiffs_of_lookup_some _ _ _ hl]
    simp
  · rw [List.flatMap_eq_nil_iff]
    intro e he
    have hl := lookup_self_of_mem_createCronJobMap A e (hdo.mem_iff.mp he)
    exact devEntryDiffs_of_lookup_some _ _ _ hl

/-- Witness for C4 at a concrete collection, with a non-canonical iteration
order on the production side. -/
theorem claim_compare_self_empty_witness :
    ((createCronJobMap [⟨"/bin/x", "a", "1 * * * *"⟩,
        ⟨"/bin/y", "b", "2 * * * *"⟩]).reverse).Perm
      (createCronJobMap [⟨"/bin/x", "a", "1 * * * *"⟩,
        ⟨"/bin/y", "b", "2 * * * *"⟩]) ∧
    compareCommandsWith
      (createCronJobMap [⟨"/bin/x", "a", "1 * * * *"⟩,
        ⟨"/bin/y", "b", "2 * * * *"⟩])
      (createCronJobMap [⟨"/bin/x", "a", "1 * * * *"⟩,
        ⟨"/bin/y", "b", "2 * * * *"⟩])
      ((createCronJobMap [⟨"/bin/x", "a", "1 * * * *"⟩,
        ⟨"/bin/y", "b", "2 * * * *"⟩]).reverse)
      (createCronJobMap [⟨"/bin/x", "a", "1 * * * *"⟩,
        ⟨"/bin/y", "b", "2 * * * *"⟩]) = [] :=
  ⟨List.reverse_perm _,
    claim_compare_self_empty _ _ _ (List.reverse_perm _) (List.Perm.refl _)⟩

/-- C2 counterexample: with two jobs present only on the production side,
two valid iteration orders of the production map (a Go `range` over a map
may produce either) yield the two missing-records in different sequences,
so two runs of the comparison need not produce the same ordered output. -/
theorem claim_compare_deterministic_counterexample :
    ((createCronJobMap [⟨"/bin/x", "a", "s"⟩, ⟨"/bin/y", "b", "s"⟩]).reverse).Perm
      (createCronJobMap [⟨"/bin/x", "a", "s"⟩, ⟨"/bin/y", "b", "s"⟩]) ∧
    compareCommandsWith
        (createCronJobMap [⟨"/bin/x", "a", "s"⟩, ⟨"/bin/y", "b", "s"⟩]) []
        ((createCronJobMap [⟨"/bin/x", "a", "s"⟩, ⟨"/bin/y", "b", "s"⟩]).reverse)
        [] ≠
      compareCommands [⟨"/bin/x", "a", "s"⟩, ⟨"/bin/y", "b", "s"⟩] [] :=
  ⟨List.reverse_perm _, by decide⟩

/-- C2 amended: the comparison is deterministic as a multiset of records:
for any valid iteration orders of the two maps, the output is a permutation
of the canonical output, so two runs agree up to record order (and the
record set is a pure function of the two input collections). -/
theorem claim_compare_deterministic_up_to_order (A B : List CronJob)
    (po dvo : List (String × CronJob))
    (hpo : po.Perm (createCronJobMap A))
    (hdo : dvo.Perm (createCronJobMap B)) :
    (compareCommandsWith (createCronJobMap A) (createCronJobMap B) po dvo).Perm
      (compareCommands A B) := by
  unfold compareCommands compareCommandsWith
  exact (hpo.flatMap_right _).append (hdo.flatMap_right _)

/-- Witness for the amended C2 at a concrete input and a reversed
production-side iteration order. -/
theorem claim_compare_deterministic_up_to_order_witness :
    ((createCronJobMap [⟨"/bin/x", "a", "s"⟩, ⟨"/bin/y", "b", "s"⟩]).reverse).Perm
      (createCronJobMap [⟨"/bin/x", "a", "s"⟩, ⟨"/bin/y", "b", "s"⟩]) ∧
    (compareCommandsWith
        (createCronJobMap [⟨"/bin/x", "a", "s"⟩, ⟨"/bin/y", "b", "s"⟩])
        (createCronJobMap [])
        ((createCronJobMap [⟨"/bin/x", "a", "s"⟩, ⟨"/bin/y", "b", "s"⟩]).reverse)
        (createCronJobMap [])).Perm
      (compareCommands [⟨"/bin/x", "a", "s"⟩, ⟨"/bin/y", "b", "s"⟩] []) :=
  ⟨List.reverse_perm _,
    claim_compare_deterministic_up_to_order _ _ _ _ (List.reverse_perm _)
      (List.Perm.refl _)⟩

/-- C1 counterexample: on the spec's rename example the code emits exactly
two missing-records (one per side) and nothing else — no rename records at
all — contradicting "two RenamedInOther records and zero MissingInOther
records". -/
theorem claim_rename_detection_counterexample :
    compareCommands [⟨"/bin/run.sh", "job1", "* * * * *"⟩]
        [⟨"/bin/run.sh", "job1_renamed", "* * * * *"⟩] =
      [⟨"job1", missingInDevType, "", ""⟩,
       ⟨"job1_renamed", missingInProdType, "", ""⟩] ∧
    ((compareCommands [⟨"/bin/run.sh", "job1", "* * * * *"⟩]
        [⟨"/bin/run.sh", "job1_renamed", "* * * * *"⟩]).filter
      (fun d => d.type = missingInDevType ∨ d.type = missingInProdType)).length
      = 2 :=
  ⟨by decide, by decide⟩

/-- C1 amended: the code performs no rename detection: a job whose name is
absent from the other side's name index always yields exactly one
missing-record — even when its command text occurs verbatim as a command on
the other side — and symmetrically for the reverse comparison; no other
record is emitted for that name in either direction. -/
theorem claim_missing_even_when_command_matches (A B : List CronJob)
    (n : String) (a : CronJob)
    (ha : lookupJob (createCronJobMap A) n = some a)
    (hb : lookupJob (createCronJobMap B) n = none)
    (_hcmd : ∃ b ∈ B, b.command = a.command) :
    (compareCommands A B).filter (fun d => d.cronName = n) =
      [⟨n, missingInDevType, "", ""⟩] ∧
    (compareCommands B A).filter (fun d => d.cronName = n) =
      [⟨n, missingInProdType, "", ""⟩] := by
  constructor
  · rw [filter_compareCommands, ha, hb]
    show prodEntryDiffs (createCronJobMap B) (n, a) ++ ([] : List JobDifference)
      = [⟨n, missingInDevType, "", ""⟩]
    rw [prodEntryDiffs_of_lookup_none _ (n, a) hb, List.append_nil]
  · rw [filter_compareCommands, hb, ha]
    show ([] : List JobDifference) ++ devEntryDiffs (createCronJobMap B) (n, a)
      = [⟨n, missingInProdType, "", ""⟩]
    rw [devEntryDiffs_of_lookup_none _ (n, a) hb, List.nil_append]

/-- Witness for the amended C1 on the spec's rename example. -/
theorem claim_missing_even_when_command_matches_witness :
    lookupJob (createCronJobMap [⟨"/bin/run.sh", "job1", "* * * * *"⟩]) "job1"
      = some ⟨"/bin/run.sh", "job1", "* * * * *"⟩ ∧
    lookupJob (createCronJobMap [⟨"/bin/run.sh", "job1_renamed", "* * * * *"⟩])
      "job1" = none ∧
    (∃ b ∈ [(⟨"/bin/run.sh", "job1_renamed", "* * * * *"⟩ : CronJob)],
      b.command = (⟨"/bin/run.sh", "job1", "* * * * *"⟩ : CronJob).command) ∧
    ((compareCommands [⟨"/bin/run.sh", "job1", "* * * * *"⟩]
        [⟨"/bin/run.sh", "job1_renamed", "* * * * *"⟩]).filter
        (fun d => d.cronName = "job1") =
      [⟨"job1", missingInDevType, "", ""⟩] ∧
    (compareCommands [⟨"/bin/run.sh", "job1_renamed", "* * * * *"⟩]
        [⟨"/bin/run.sh", "job1", "* * * * *"⟩]).filter
        (fun d => d.cronName = "job1") =
      [⟨"job1", missingInProdType, "", ""⟩]) :=
  ⟨by decide, by decide, by decide,
    claim_missing_even_when_command_matches
      [⟨"/bin/run.sh", "job1", "* * * * *"⟩]
      [⟨"/bin/run.sh", "job1_renamed", "* * * * *"⟩] "job1"
      ⟨"/bin/run.sh", "job1", "* * * * *"⟩ (by decide) (by decide) (by decide)⟩

/-- C5: missing-job detection is surfaced independently in both directions:
a job named "backup" present only on side `A` (its command matching no job
of `B`) yields exactly one missing-record named "backup" in `compare(A,B)`
and exactly one in `compare(B,A)`. -/
theorem claim_missing_both_directions (A B : List CronJob) (x : CronJob)
    (hx : lookupJob (createCronJobMap A) "backup" = some x)
    (hnb : lookupJob (createCronJobMap B) "backup" = none)
    (_hcmd : ∀ b ∈ B, b.command ≠ x.command) :
    (compareCommands A B).filter (fun d => d.cronName = "backup") =
      [⟨"backup", missingInDevType, "", ""⟩] ∧
    (compareCommands B A).filter (fun d => d.cronName = "backup") =
      [⟨"backup", missingInProdType, "", ""⟩] := by
  constructor
  · rw [filter_compareCommands, hx, hnb]
    show prodEntryDiffs (createCronJobMap B) ("backup", x) ++
        ([] : List JobDifference)
      = [⟨"backup", missingInDevType, "", ""⟩]
    rw [prodEntryDiffs_of_lookup_none _ ("backup", x) hnb, List.append_nil]
  · rw [filter_compareCommands, hnb, hx]
    show ([] : List JobDifference) ++
        devEntryDiffs (createCronJobMap B) ("backup", x)
      = [⟨"backup", missingInProdType, "", ""⟩]
    rw [devEntryDiffs_of_lookup_none _ ("backup", x) hnb, List.nil_append]

/-- Witness for C5 on the spec's backup example. -/
theorem claim_missing_both_directions_witness :
    lookupJob (createCronJobMap [⟨"/bin/backup.sh", "backup", "0 2 * * *"⟩])
      "backup" = some ⟨"/bin/backup.sh", "backup", "0 2 * * *"⟩ ∧
    lookupJob (createCronJobMap [⟨"/bin/other.sh", "other", "* * * * *"⟩])
      "backup" = none ∧
    (∀ b ∈ [(⟨"/bin/other.sh", "other", "* * * * *"⟩ : CronJob)],
      b.command ≠ (⟨"/bin/backup.sh", "backup", "0 2 * * *"⟩ : CronJob).command) ∧
    ((compareCommands [⟨"/bin/backup.sh", "backup", "0 2 * * *"⟩]
        [⟨"/bin/other.sh", "other", "* * * * *"⟩]).filter
        (fun d => d.cronName = "backup") =
      [⟨"backup", missingInDevType, "", ""⟩] ∧
    (compareCommands [⟨"/bin/other.sh", "other", "* * * * *"⟩]
        [⟨"/bin/backup.sh", "backup", "0 2 * * *"⟩]).filter
        (fun d => d.cronName = "backup") =
      [⟨"backup", missingInProdType, "", ""⟩]) :=
  ⟨by decide, by decide, by decide,
    claim_missing_both_directions
      [⟨"/bin/backup.sh", "backup", "0 2 * * *"⟩]
      [⟨"/bin/other.sh", "other", "* * * * *"⟩]
      ⟨"/bin/backup.sh", "backup", "0 2 * * *"⟩ (by decide) (by decide)
      (by decide)⟩

/-- C3: for a name present in both name indexes, a command-difference
record (carrying both original command strings) is emitted iff the two
commands differ after whitespace normalization, and a schedule-difference
record (carrying both schedule strings) is emitted iff the schedules differ
under exact string comparison — no normalization on schedules. -/
theorem claim_diff_records_iff (A B : List CronJob) (n : String)
    (a b : CronJob) (ha : lookupJob (createCronJobMap A) n = some a)
    (hb : lookupJob (createCronJobMap B) n = some b) :
    ((⟨n, cmdDiffType, a.command, b.command⟩ : JobDifference) ∈
        compareCommands A B ↔
      normalizeCommand a.command ≠ normalizeCommand b.command) ∧
    ((⟨n, schedDiffType, a.schedule, b.schedule⟩ : JobDifference) ∈
        compareCommands A B ↔
      a.schedule ≠ b.schedule) := by
  have key : ∀ r : JobDifference, r.cronName = n →
      (r ∈ compareCommands A B ↔
        r ∈ prodEntryDiffs (createCronJobMap B) (n, a)) := by
    intro r hr
    have h1 : r ∈ compareCommands A B ↔
        r ∈ (compareCommands A B).filter (fun d => d.cronName = n) := by
      constructor
      · intro h; exact List.mem_filter.mpr ⟨h, by simp [hr]⟩
      · intro h; exact (List.mem_filter.mp h).1
    rw [h1, filter_compareCommands, ha, hb]
    show r ∈ prodEntryDiffs (createCronJobMap B) (n, a) ++
        devEntryDiffs (createCronJobMap A) (n, b) ↔ _
    rw [devEntryDiffs_of_lookup_some _ (n, b) a ha, List.append_nil]
  rw [prodEntryDiffs_of_lookup_some _ (n, a) b hb] at key
  constructor
  · rw [key _ rfl]
    constructor
    · intro h
      rcases List.mem_append.mp h with h1 | h2
      · by_cases hc : normalizeCommand a.command ≠ normalizeCommand b.command
        · exact hc
        · rw [if_neg hc] at h1; cases h1
      · by_cases hs : a.schedule ≠ b.schedule
        · rw [if_pos hs] at h2
          have heq := List.mem_singleton.mp h2
          exact absurd (congrArg JobDifference.type heq)
            cmdDiffType_ne_schedDiffType
        · rw [if_neg hs] at h2; cases h2
    · intro hc
      exact List.mem_append.mpr (Or.inl (by rw [if_pos hc]; exact List.mem_singleton.mpr rfl))
  · rw [key _ rfl]
    constructor
    · intro h
      rcases List.mem_append.mp h with h1 | h2
      · by_cases hc : normalizeCommand a.command ≠ normalizeCommand b.command
        · rw [if_pos hc] at h1
          have heq := List.mem_singleton.mp h1
          exact absurd (congrArg JobDifference.type heq)
            (fun he => cmdDiffType_ne_schedDiffType he.symm)
        · rw [if_neg hc] at h1; cases h1
      · by_cases hs : a.schedule ≠ b.schedule
        · exact hs
        · rw [if_neg hs] at h2; cases h2
    · intro hs
      exact List.mem_append.mpr (Or.inr (by rw [if_pos hs]; exact List.mem_singleton.mpr rfl))

/-- Witness for C3: commands "x" vs "y" under the same name with equal
schedules give a command-difference record and no schedule-difference
record. -/
theorem claim_diff_records_iff_witness :
    lookupJob (createCronJobMap [⟨"x", "j", "1 * * * *"⟩]) "j" =
      some ⟨"x", "j", "1 * * * *"⟩ ∧
    lookupJob (createCronJobMap [⟨"y", "j", "1 * * * *"⟩]) "j" =
      some ⟨"y", "j", "1 * * * *"⟩ ∧
    (((⟨"j", cmdDiffType, "x", "y"⟩ : JobDifference) ∈
        compareCommands [⟨"x", "j", "1 * * * *"⟩] [⟨"y", "j", "1 * * * *"⟩] ↔
      normalizeCommand "x" ≠ normalizeCommand "y") ∧
    ((⟨"j", schedDiffType, "1 * * * *", "1 * * * *"⟩ : JobDifference) ∈
        compareCommands [⟨"x", "j", "1 * * * *"⟩] [⟨"y", "j", "1 * * * *"⟩] ↔
      ("1 * * * *" : String) ≠ "1 * * * *")) :=
  ⟨by decide, by decide,
    claim_diff_records_iff [⟨"x", "j", "1 * * * *"⟩] [⟨"y", "j", "1 * * * *"⟩]
      "j" ⟨"x", "j", "1 * * * *"⟩ ⟨"y", "j", "1 * * * *"⟩ (by decide)
      (by decide)⟩

/-- C8: every emitted record satisfies the shape invariant: a
command-difference or schedule-difference record carries both side values
(the two sides' original strings for that name), while a missing-record
carries no values (both optional fields are kept at the Go zero value, the
empty string); no other record kind is ever emitted. -/
theorem claim_record_shape_invariant (A B : List CronJob) (d : JobDifference)
    (h : d ∈ compareCommands A B) :
    (d.type = cmdDiffType ∧ ∃ a b,
        lookupJob (createCronJobMap A) d.cronName = some a ∧
        lookupJob (createCronJobMap B) d.cronName = some b ∧
        d.production = a.command ∧ d.development = b.command) ∨
    (d.type = schedDiffType ∧ ∃ a b,
        lookupJob (createCronJobMap A) d.cronName = some a ∧
        lookupJob (createCronJobMap B) d.cronName = some b ∧
        d.production = a.schedule ∧ d.development = b.schedule) ∨
    ((d.type = missingInDevType ∨ d.type = missingInProdType) ∧
      d.production = "" ∧ d.development = "") := by
  rcases mem_compareCommands_elim A B d h with ⟨e, he, hd⟩ | ⟨e, he, hd⟩
  · have hla := lookup_self_of_mem_createCronJobMap A e he
    rcases prodEntryDiffs_shape _ _ _ hd with ⟨b, hlb, hcase⟩ | ⟨_, hd'⟩
    · rcases hcase with ⟨hdef, _⟩ | ⟨hdef, _⟩
      · subst hdef
        exact Or.inl ⟨rfl, e.2, b, hla, hlb, rfl, rfl⟩
      · subst hdef
        exact Or.inr (Or.inl ⟨rfl, e.2, b, hla, hlb, rfl, rfl⟩)
    · subst hd'
      exact Or.inr (Or.inr ⟨Or.inl rfl, rfl, rfl⟩)
  · rcases devEntryDiffs_shape _ _ _ hd with ⟨_, hd'⟩
    subst hd'
    exact Or.inr (Or.inr ⟨Or.inr rfl, rfl, rfl⟩)

/-- Witness for C8 on a concrete command-difference record. -/
theorem claim_record_shape_invariant_witness :
    (⟨"j", cmdDiffType, "x", "y"⟩ : JobDifference) ∈
      compareCommands [⟨"x", "j", "s"⟩] [⟨"y", "j", "s"⟩] ∧
    ((JobDifference.type ⟨"j", cmdDiffType, "x", "y"⟩ = cmdDiffType ∧ ∃ a b,
        lookupJob (createCronJobMap [⟨"x", "j", "s"⟩])
          (JobDifference.cronName ⟨"j", cmdDiffType, "x", "y"⟩) = some a ∧
        lookupJob (createCronJobMap [⟨"y", "j", "s"⟩])
          (JobDifference.cronName ⟨"j", cmdDiffType, "x", "y"⟩) = some b ∧
        JobDifference.production ⟨"j", cmdDiffType, "x", "y"⟩ = a.command ∧
        JobDifference.development ⟨"j", cmdDiffType, "x", "y"⟩ = b.command) ∨
    (JobDifference.type ⟨"j", cmdDiffType, "x", "y"⟩ = schedDiffType ∧ ∃ a b,
        lookupJob (createCronJobMap [⟨"x", "j", "s"⟩])
          (JobDifference.cronName ⟨"j", cmdDiffType, "x", "y"⟩) = some a ∧
        lookupJob (createCronJobMap [⟨"y", "j", "s"⟩])
          (JobDifference.cronName ⟨"j", cmdDiffType, "x", "y"⟩) = some b ∧
        JobDifference.production ⟨"j", cmdDiffType, "x", "y"⟩ = a.schedule ∧
        JobDifference.development ⟨"j", cmdDiffType, "x", "y"⟩ = b.schedule) ∨
    ((JobDifference.type ⟨"j", cmdDiffType, "x", "y"⟩ = missingInDevType ∨
        JobDifference.type ⟨"j", cmdDiffType, "x", "y"⟩ = missingInProdType) ∧
      JobDifference.production ⟨"j", cmdDiffType, "x", "y"⟩ = "" ∧
      JobDifference.development ⟨"j", cmdDiffType, "x", "y"⟩ = "")) :=
  ⟨by decide,
    claim_record_shape_invariant [⟨"x", "j", "s"⟩] [⟨"y", "j", "s"⟩]
      ⟨"j", cmdDiffType, "x", "y"⟩ (by decide)⟩

/-- C10: the output contains at most one command-difference record and at
most one schedule-difference record per job name, even when an input
collection contains several jobs with the same name (only the last job
bearing each name participates in the comparison). -/
theorem claim_at_most_one_diff_per_name (A B : List CronJob) (n : String) :
    (((compareCommands A B).filter (fun d => d.cronName = n)).filter
      (fun d => d.type = cmdDiffType)).length ≤ 1 ∧
    (((compareCommands A B).filter (fun d => d.cronName = n)).filter
      (fun d => d.type = schedDiffType)).length ≤ 1 := by
  cases ha : lookupJob (createCronJobMap A) n with
  | none =>
    cases hb : lookupJob (createCronJobMap B) n with
    | none =>
      have hf : (compareCommands A B).filter (fun d => d.cronName = n) = [] := by
        rw [filter_compareCommands, ha, hb]
        rfl
      rw [hf]
      exact ⟨by simp, by simp⟩
    | some b =>
      have hf : (compareCommands A B).filter (fun d => d.cronName = n) =
          [⟨n, missingInProdType, "", ""⟩] := by
        rw [filter_compareCommands, ha, hb]
        show ([] : List JobDifference) ++
            devEntryDiffs (createCronJobMap A) (n, b) = _
        rw [devEntryDiffs_of_lookup_none _ (n, b) ha, List.nil_append]
      rw [hf]
      constructor <;> simp [missingInProdType, cmdDiffType, schedDiffType]
  | some a =>
    cases hb : lookupJob (createCronJobMap B) n with
    | none =>
      have hf : (compareCommands A B).filter (fun d => d.cronName = n) =
          [⟨n, missingInDevType, "", ""⟩] := by
        rw [filter_compareCommands, ha, hb]
        show prodEntryDiffs (createCronJobMap B) (n, a) ++
            ([] : List JobDifference) = _
        rw [prodEntryDiffs_of_lookup_none _ (n, a) hb, List.append_nil]
      rw [hf]
      constructor <;> simp [missingInDevType, cmdDiffType, schedDiffType]
    | some b =>
      have hf : (compareCommands A B).filter (fun d => d.cronName = n) =
          prodEntryDiffs (createCronJobMap B) (n, a) := by
        rw [filter_compareCommands, ha, hb]
        show prodEntryDiffs (createCronJobMap B) (n, a) ++
            devEntryDiffs (createCronJobMap A) (n, b) = _
        rw [devEntryDiffs_of_lookup_some _ (n, b) a ha, List.append_nil]
      rw [hf, prodEntryDiffs_of_lookup_some _ (n, a) b hb]
      constructor <;>
        · rw [List.filter_append]
          split_ifs <;> simp [cmdDiffType, schedDiffType]
